import Mathlib

/-!
Shallow embedding of the `erased-vec` crate (`src/lib.rs`): a type-erased
growable vector `ErasedVec` storing raw bytes.  Buffers are modelled as
lists of bytes (`List Nat`), pointers-into-buffers as offsets, and the
runtime type token `std::any::TypeId` as a `Nat`.  Operations that panic
(failed `assert!`/`assert_eq!`, or a debug-mode integer underflow) return
`none`; allocation is assumed to succeed, as the source unwraps every
allocation result.
-/

namespace ErasedVecModel

/-- A raw byte buffer: one `Nat` per byte. -/
abbrev Bytes := List Nat

/-- Read `n` bytes starting at byte offset `off`. -/
def readBytes (buf : Bytes) (off n : Nat) : Bytes :=
  (buf.drop off).take n

/-- Overwrite the bytes at offsets `[off, off + data.length)` with `data`. -/
def writeBytes (buf : Bytes) (off : Nat) (data : Bytes) : Bytes :=
  buf.take off ++ data ++ buf.drop (off + data.length)

/-- `std::ptr::copy` on `*mut u8`: move `n` BYTES from offset `src` to
offset `dst` within the same buffer, with memmove (overlap-safe)
semantics: the source range is read in full before being written. -/
def ptrCopy (buf : Bytes) (src dst n : Nat) : Bytes :=
  writeBytes buf dst (readBytes buf src n)

/-- The `ErasedVec<A>` struct of `src/lib.rs`.  The buffer is inlined in
place of the raw pointer `ptr`; `element_type` models the `TypeId`. -/
structure ErasedVec where
  element_type : Nat
  element_size : Nat
  element_align : Nat
  buffer : Bytes
  len : Nat
  cap : Nat
deriving Repr, DecidableEq

/-- `ErasedVec::new::<T>()` (and `new_in`): zero length, zero capacity,
null buffer. `tid`, `esize`, `align` stand for `TypeId::of::<T>()`,
`size_of::<T>()`, `align_of::<T>()`. -/
def new (tid esize align : Nat) : ErasedVec :=
  { element_type := tid, element_size := esize, element_align := align
    buffer := [], len := 0, cap := 0 }

/-- `ErasedVec::with_capacity::<T>(capacity)` (and `with_capacity_in`):
allocates `capacity` element slots up front; fresh memory is modelled as
zero bytes (the source leaves it uninitialized, and no operation reads
it before writing it). -/
def with_capacity (tid esize align capacity : Nat) : ErasedVec :=
  { element_type := tid, element_size := esize, element_align := align
    buffer := List.replicate (capacity * esize) 0, len := 0, cap := capacity }

/-- `ErasedVec::grow`.  The source's `cap == 0` branch allocates one
element slot and sets `cap = 1` but does NOT return: control falls
through to the doubling path below it, exactly as in the source. -/
def grow (v : ErasedVec) : ErasedVec :=
  let v1 :=
    if v.cap = 0 then
      { v with buffer := List.replicate v.element_size 0, cap := 1 }
    else v
  let oldSize := v1.cap * v1.element_size
  let newBuffer :=
    writeBytes (List.replicate (2 * v1.cap * v1.element_size) 0) 0
      (readBytes v1.buffer 0 oldSize)
  { v1 with buffer := newBuffer, cap := 2 * v1.cap }

/-- `ErasedVec::push::<T>(value)`: `assert_eq!(TypeId::of::<T>(),
self.element_type)` (modelled as `none` on mismatch), grow when full,
then copy `element_size` bytes of the value into slot `len` and
increment `len`. -/
def push (v : ErasedVec) (tid : Nat) (value : Bytes) : Option ErasedVec :=
  if tid = v.element_type then
    let v1 := if v.len = v.cap then grow v else v
    let buf := writeBytes v1.buffer (v1.len * v1.element_size) (value.take v1.element_size)
    some { v1 with buffer := buf, len := v1.len + 1 }
  else none

/-- `ErasedVec::pop`: asserts `len > 0`, then decrements `len` only. -/
def pop (v : ErasedVec) : Option ErasedVec :=
  if 0 < v.len then some { v with len := v.len - 1 } else none

/-- `ErasedVec::get::<T>(index)`: asserts the type token matches, then
returns `None` out of range and a view of the element's bytes otherwise. -/
def get (v : ErasedVec) (tid : Nat) (index : Nat) : Option (Option Bytes) :=
  if tid = v.element_type then
    some (if v.len ≤ index then none
      else some (readBytes v.buffer (index * v.element_size) v.element_size))
  else none

/-- `ErasedVec::erase(index)`.  Two faithful details: (1) the source
computes `self.len - 1` on `usize`, which aborts on underflow when
`len = 0` (debug overflow check), modelled as `none`; (2) the byte copy
`std::ptr::copy(src, dst, self.len - 1 - index)` passes an ELEMENT count
where a BYTE count is expected, so only `len - 1 - index` bytes move. -/
def erase (v : ErasedVec) (index : Nat) : Option ErasedVec :=
  if v.len = 0 then none
  else
    let buf :=
      if index < v.len - 1 then
        ptrCopy v.buffer ((index + 1) * v.element_size)
          (index * v.element_size) (v.len - 1 - index)
      else v.buffer
    some { v with buffer := buf, len := v.len - 1 }

/-- `ErasedVec::remove::<T>(index)`: asserts `index < len` (no type
check), reads `size_of::<T>() = tsize` bytes at the slot via
`std::ptr::read`, then delegates to `erase`. -/
def remove (v : ErasedVec) (tsize : Nat) (index : Nat) :
    Option (Bytes × ErasedVec) :=
  if index < v.len then
    let val := readBytes v.buffer (index * v.element_size) tsize
    (erase v index).map fun v1 => (val, v1)
  else none

/-- A standard `Vec<T>`, byte-level: its observable elements are the
first `vlen` slots of its buffer. -/
structure RustVec where
  bufferBytes : Bytes
  vlen : Nat
  vcap : Nat
deriving Repr, DecidableEq

/-- The elements of a `RustVec` of element size `esize`: slots `[0, vlen)`. -/
def RustVec.elements (esize : Nat) (vec : RustVec) : List Bytes :=
  (List.range vec.vlen).map fun i => readBytes vec.bufferBytes (i * esize) esize

/-- `ErasedVec::into_vec::<T>()`: asserts the type token matches, builds
`Vec::with_capacity(self.len)` (length 0), and byte-copies the live
range into the vec's buffer.  The source never calls `set_len`, so the
returned vec's length stays 0, exactly as modelled. -/
def into_vec (v : ErasedVec) (tid : Nat) : Option RustVec :=
  if tid = v.element_type then
    let vec : RustVec :=
      { bufferBytes := List.replicate (v.len * v.element_size) 0
        vlen := 0, vcap := v.len }
    let copied := writeBytes vec.bufferBytes 0 (readBytes v.buffer 0 (v.len * v.element_size))
    let vec := if 0 < v.len then { vec with bufferBytes := copied } else vec
    some vec
  else none

/-- `impl Clone for ErasedVec`: allocate a fresh buffer of
`cap * element_size` bytes, copy the live `len * element_size` bytes,
and duplicate all metadata. -/
def clone (v : ErasedVec) : ErasedVec :=
  let fresh := List.replicate (v.cap * v.element_size) 0
  let copied := writeBytes fresh 0 (readBytes v.buffer 0 (v.len * v.element_size))
  { v with buffer := copied }

/-- The bytes of the live element at index `i`. -/
def element (v : ErasedVec) (i : Nat) : Bytes :=
  readBytes v.buffer (i * v.element_size) v.element_size

/-- Structural well-formedness: the length bound and the buffer's size. -/
def WF (v : ErasedVec) : Prop :=
  v.len ≤ v.cap ∧ v.buffer.length = v.cap * v.element_size

instance (v : ErasedVec) : Decidable (WF v) := by
  unfold WF; infer_instance

/-- One mutating operation of the public API, for reachability claims. -/
inductive Op where
  | push (tid : Nat) (value : Bytes)
  | pop
  | erase (index : Nat)
  | remove (tsize index : Nat)
  | clone
deriving Repr

/-- Run one operation; `none` when the source would panic. -/
def exec (v : ErasedVec) : Op → Option ErasedVec
  | .push tid value => push v tid value
  | .pop => pop v
  | .erase index => erase v index
  | .remove tsize index => (remove v tsize index).map Prod.snd
  | .clone => some (clone v)

/-- Run a sequence of operations, stopping at the first panic. -/
def execAll (v : ErasedVec) (ops : List Op) : Option ErasedVec :=
  ops.foldl (fun acc op => acc.bind fun s => exec s op) (some v)

/-- Push each value of `vals` in order. -/
def pushAll (v : ErasedVec) (tid : Nat) (vals : List Bytes) : Option ErasedVec :=
  vals.foldl (fun acc value => acc.bind fun s => push s tid value) (some v)

/-! ### Byte-buffer lemmas -/

theorem readBytes_length (buf : Bytes) (off n : Nat) (h : off + n ≤ buf.length) :
    (readBytes buf off n).length = n := by
  simp [readBytes]
  omega

theorem writeBytes_length (buf : Bytes) (off : Nat) (data : Bytes)
    (h : off + data.length ≤ buf.length) :
    (writeBytes buf off data).length = buf.length := by
  simp [writeBytes]
  omega

theorem readBytes_zero (buf : Bytes) (n : Nat) :
    readBytes buf 0 n = buf.take n := by
  simp [readBytes]

theorem readBytes_all (buf : Bytes) (n : Nat) (h : buf.length ≤ n) :
    readBytes buf 0 n = buf := by
  simp [readBytes, List.take_of_length_le h]

theorem readBytes_take (buf : Bytes) (m off n : Nat) (h : off + n ≤ m) :
    readBytes (buf.take m) off n = readBytes buf off n := by
  simp only [readBytes, List.drop_take]
  rw [List.take_take]
  congr 1
  omega

theorem readBytes_append (l₁ l₂ : Bytes) (off n : Nat) (h : off + n ≤ l₁.length) :
    readBytes (l₁ ++ l₂) off n = readBytes l₁ off n := by
  have h1 : readBytes (l₁ ++ l₂) off n = readBytes ((l₁ ++ l₂).take l₁.length) off n :=
    (readBytes_take _ _ _ _ h).symm
  rw [h1, List.take_left]

theorem writeBytes_replicate_zero (k : Nat) (data : Bytes) :
    writeBytes (List.replicate k (0 : Nat)) 0 data
      = data ++ List.replicate (k - data.length) 0 := by
  simp [writeBytes, List.drop_replicate]

theorem readBytes_writeBytes_left (buf : Bytes) (off : Nat) (data : Bytes)
    (off₂ n : Nat) (h1 : off₂ + n ≤ off) (h2 : off ≤ buf.length) :
    readBytes (writeBytes buf off data) off₂ n = readBytes buf off₂ n := by
  unfold writeBytes
  rw [List.append_assoc]
  have hlen : off₂ + n ≤ (buf.take off).length := by
    simp
    omega
  rw [readBytes_append _ _ _ _ hlen, readBytes_take _ _ _ _ h1]

theorem readBytes_writeBytes_self (buf : Bytes) (off : Nat) (data : Bytes)
    (h : off ≤ buf.length) :
    readBytes (writeBytes buf off data) off data.length = data := by
  unfold writeBytes readBytes
  rw [List.append_assoc]
  have hlen : (buf.take off).length = off := by
    simp
    omega
  rw [List.drop_left' hlen, List.take_left' rfl]

/-! ### Growth lemmas -/

theorem grow_len (v : ErasedVec) : (grow v).len = v.len := by
  by_cases hc : v.cap = 0 <;> simp [grow, hc]

theorem grow_cap (v : ErasedVec) : (grow v).cap = 2 * max 1 v.cap := by
  by_cases hc : v.cap = 0
  · simp [grow, hc]
  · simp [grow, hc]
    omega

theorem grow_eq_zero (v : ErasedVec) (h : WF v) (hc : v.cap = 0) :
    grow v = { v with buffer := List.replicate (2 * v.element_size) 0, cap := 2 } := by
  obtain ⟨hlc, hbl⟩ := h
  have hb : v.buffer = [] := by
    rw [hc] at hbl
    simpa using hbl
  have h1 : readBytes (List.replicate v.element_size (0 : Nat)) 0 v.element_size
      = List.replicate v.element_size 0 := readBytes_all _ _ (by simp)
  simp [grow, hc, hb, h1, writeBytes_replicate_zero, ← List.replicate_add]
  omega

theorem grow_eq_pos (v : ErasedVec) (h : WF v) (hc : v.cap ≠ 0) :
    grow v = { v with buffer := v.buffer ++ List.replicate (v.cap * v.element_size) 0, cap := 2 * v.cap } := by
  obtain ⟨hlc, hbl⟩ := h
  have h1 : readBytes v.buffer 0 (v.cap * v.element_size) = v.buffer :=
    readBytes_all _ _ (le_of_eq hbl)
  have h2 : 2 * v.cap * v.element_size - v.buffer.length = v.cap * v.element_size := by
    rw [hbl, Nat.mul_assoc, Nat.two_mul, Nat.add_sub_cancel]
  simp [grow, hc, h1, writeBytes_replicate_zero, h2]

theorem grow_spec (v : ErasedVec) (h : WF v) :
    WF (grow v) ∧ (grow v).len = v.len ∧ (grow v).element_type = v.element_type ∧
    (grow v).element_size = v.element_size ∧ v.len < (grow v).cap ∧
    ∀ i, i < v.len → element (grow v) i = element v i := by
  obtain ⟨hlc, hbl⟩ := h
  by_cases hc : v.cap = 0
  · rw [grow_eq_zero v ⟨hlc, hbl⟩ hc]
    refine ⟨⟨?_, ?_⟩, rfl, rfl, rfl, ?_, ?_⟩
    · show v.len ≤ 2
      omega
    · show (List.replicate (2 * v.element_size) (0 : Nat)).length = 2 * v.element_size
      simp
    · show v.len < 2
      omega
    · intro i hi
      exact absurd hi (by omega)
  · rw [grow_eq_pos v ⟨hlc, hbl⟩ hc]
    refine ⟨⟨?_, ?_⟩, rfl, rfl, rfl, ?_, ?_⟩
    · show v.len ≤ 2 * v.cap
      omega
    · show (v.buffer ++ List.replicate (v.cap * v.element_size) (0 : Nat)).length
        = 2 * v.cap * v.element_size
      simp [hbl]
      ring
    · show v.len < 2 * v.cap
      omega
    · intro i hi
      show readBytes (v.buffer ++ List.replicate (v.cap * v.element_size) 0)
        (i * v.element_size) v.element_size = readBytes v.buffer (i * v.element_size) v.element_size
      refine readBytes_append _ _ _ _ ?_
      rw [hbl]
      calc i * v.element_size + v.element_size = (i + 1) * v.element_size := (Nat.succ_mul i _).symm
        _ ≤ v.cap * v.element_size := Nat.mul_le_mul (by omega) (le_refl _)

/-! ### Push lemmas -/

theorem push_aux (v : ErasedVec) (h : WF v) :
    WF (if v.len = v.cap then grow v else v) ∧
    (if v.len = v.cap then grow v else v).len = v.len ∧
    (if v.len = v.cap then grow v else v).element_type = v.element_type ∧
    (if v.len = v.cap then grow v else v).element_size = v.element_size ∧
    v.len < (if v.len = v.cap then grow v else v).cap ∧
    ∀ i, i < v.len → element (if v.len = v.cap then grow v else v) i = element v i := by
  by_cases hf : v.len = v.cap
  · rw [if_pos hf]
    exact grow_spec v h
  · rw [if_neg hf]
    have h1 := h.1
    exact ⟨h, rfl, rfl, rfl, by omega, fun i hi => rfl⟩

theorem push_eq (v : ErasedVec) (tid : Nat) (value : Bytes) (ht : tid = v.element_type) :
    push v tid value = some { (if v.len = v.cap then grow v else v) with buffer := writeBytes (if v.len = v.cap then grow v else v).buffer ((if v.len = v.cap then grow v else v).len * (if v.len = v.cap then grow v else v).element_size) (value.take (if v.len = v.cap then grow v else v).element_size), len := (if v.len = v.cap then grow v else v).len + 1 } := by
  unfold push
  rw [if_pos ht]

theorem push_spec (v : ErasedVec) (value : Bytes) (h : WF v)
    (hv : value.length = v.element_size) :
    ∃ w, push v v.element_type value = some w ∧ WF w ∧ w.len = v.len + 1 ∧
      w.element_type = v.element_type ∧ w.element_size = v.element_size ∧
      (∀ i, i < v.len → element w i = element v i) ∧ element w v.len = value := by
  have haux := push_aux v h
  have hps := push_eq v v.element_type value rfl
  revert haux hps
  generalize (if v.len = v.cap then grow v else v) = v1
  intro haux hps
  obtain ⟨⟨hwl, hwb⟩, hlen1, hty1, hsz1, hcap1, hel1⟩ := haux
  have hval : value.take v1.element_size = value := by
    rw [hsz1, ← hv, List.take_length]
  have hbufle : v1.len * v1.element_size + v1.element_size ≤ v1.buffer.length := by
    rw [hwb]
    calc v1.len * v1.element_size + v1.element_size
        = (v1.len + 1) * v1.element_size := (Nat.succ_mul _ _).symm
      _ ≤ v1.cap * v1.element_size := Nat.mul_le_mul (by omega) (le_refl _)
  refine ⟨_, hps, ⟨?_, ?_⟩, ?_, hty1, hsz1, ?_, ?_⟩
  · show v1.len + 1 ≤ v1.cap
    omega
  · show (writeBytes v1.buffer (v1.len * v1.element_size) (value.take v1.element_size)).length
      = v1.cap * v1.element_size
    rw [writeBytes_length, hwb]
    rw [hval, hv, ← hsz1]
    omega
  · show v1.len + 1 = v.len + 1
    omega
  · intro i hi
    show readBytes (writeBytes v1.buffer (v1.len * v1.element_size) (value.take v1.element_size))
      (i * v1.element_size) v1.element_size = element v i
    rw [readBytes_writeBytes_left]
    · exact hel1 i hi
    · calc i * v1.element_size + v1.element_size
          = (i + 1) * v1.element_size := (Nat.succ_mul _ _).symm
        _ ≤ v1.len * v1.element_size := Nat.mul_le_mul (by omega) (le_refl _)
    · omega
  · show readBytes (writeBytes v1.buffer (v1.len * v1.element_size) (value.take v1.element_size))
      (v.len * v1.element_size) v1.element_size = value
    have hlenval : v1.element_size = value.length := by rw [hsz1, hv]
    rw [← hlen1, hval, hlenval]
    exact readBytes_writeBytes_self v1.buffer (v1.len * value.length) value
      (by rw [← hlenval]; omega)

/-! ### Folding lemmas -/

theorem foldl_push_none (tid : Nat) (vals : List Bytes) :
    vals.foldl (fun acc value => acc.bind fun s => push s tid value) none = none := by
  induction vals with
  | nil => rfl
  | cons b bs ih => simpa using ih

theorem pushAll_cons (v : ErasedVec) (tid : Nat) (b : Bytes) (bs : List Bytes) :
    pushAll v tid (b :: bs) = (push v tid b).bind fun w => pushAll w tid bs := by
  unfold pushAll
  simp only [List.foldl_cons, Option.some_bind]
  cases hpb : push v tid b with
  | none => exact foldl_push_none tid bs
  | some w => rfl

theorem foldl_exec_none (ops : List Op) :
    ops.foldl (fun acc op => acc.bind fun s => exec s op) none = none := by
  induction ops with
  | nil => rfl
  | cons o os ih => simpa using ih

theorem execAll_cons (v : ErasedVec) (o : Op) (os : List Op) :
    execAll v (o :: os) = (exec v o).bind fun w => execAll w os := by
  unfold execAll
  simp only [List.foldl_cons, Option.some_bind]
  cases hpb : exec v o with
  | none => exact foldl_exec_none os
  | some w => rfl

theorem pushAll_spec (vals : List Bytes) (v : ErasedVec) (h : WF v)
    (hvals : ∀ b ∈ vals, b.length = v.element_size) :
    ∃ w, pushAll v v.element_type vals = some w ∧ WF w ∧
      w.len = v.len + vals.length ∧ w.element_type = v.element_type ∧
      w.element_size = v.element_size ∧
      (∀ i, i < v.len → element w i = element v i) ∧
      (∀ j (hj : j < vals.length), element w (v.len + j) = vals[j]) := by
  induction vals generalizing v with
  | nil =>
    exact ⟨v, rfl, h, by simp, rfl, rfl, fun i hi => rfl, fun j hj => absurd hj (by simp)⟩
  | cons b bs ih =>
    obtain ⟨v1, hp1, hwf1, hlen1, hty1, hsz1, hpres1, hlast1⟩ :=
      push_spec v b h (hvals b (List.mem_cons_self b bs))
    have hvals1 : ∀ x ∈ bs, x.length = v1.element_size := by
      rw [hsz1]
      intro x hx
      exact hvals x (List.mem_cons_of_mem _ hx)
    obtain ⟨w, hw, hwfw, hlenw, htyw, hszw, hpresw, hlastw⟩ := ih v1 hwf1 hvals1
    rw [hty1] at hw
    refine ⟨w, ?_, hwfw, by simp [hlenw, hlen1]; omega, by rw [htyw, hty1],
      by rw [hszw, hsz1], ?_, ?_⟩
    · rw [pushAll_cons, hp1]
      exact hw
    · intro i hi
      rw [hpresw i (by omega), hpres1 i hi]
    · intro j hj
      match j with
      | 0 =>
        have h1 : v.len + 0 < v1.len := by omega
        rw [hpresw (v.len + 0) (by omega)]
        simpa using hlast1
      | j + 1 =>
        have h1 : v.len + (j + 1) = v1.len + j := by omega
        rw [h1, hlastw j (by simpa using hj)]
        simp

/-- `get` on a matching type token and an in-range index views the
element's bytes. -/
theorem get_of_lt (v : ErasedVec) (tid i : Nat) (ht : tid = v.element_type)
    (hi : i < v.len) :
    get v tid i = some (some (element v i)) := by
  unfold get
  rw [if_pos ht, if_neg (by omega)]
  rfl

/-! ### Length/capacity bookkeeping of each operation -/

theorem push_len_le_cap (v : ErasedVec) (tid : Nat) (value : Bytes) (w : ErasedVec)
    (h : push v tid value = some w) (hv : v.len ≤ v.cap) : w.len ≤ w.cap := by
  unfold push at h
  by_cases ht : tid = v.element_type
  · rw [if_pos ht] at h
    obtain rfl := (Option.some.inj h).symm
    show (if v.len = v.cap then grow v else v).len + 1 ≤ (if v.len = v.cap then grow v else v).cap
    by_cases hf : v.len = v.cap
    · rw [if_pos hf]
      have h1 := grow_len v
      have h2 := grow_cap v
      omega
    · rw [if_neg hf]
      omega
  · rw [if_neg ht] at h
    exact absurd h (by simp)

theorem erase_len_cap (v : ErasedVec) (index : Nat) (w : ErasedVec)
    (h : erase v index = some w) :
    w.len = v.len - 1 ∧ w.cap = v.cap ∧
      w.element_type = v.element_type ∧ w.element_size = v.element_size := by
  unfold erase at h
  by_cases h0 : v.len = 0
  · rw [if_pos h0] at h
    exact absurd h (by simp)
  · rw [if_neg h0] at h
    obtain rfl := (Option.some.inj h).symm
    exact ⟨rfl, rfl, rfl, rfl⟩

theorem remove_len_cap (v : ErasedVec) (tsize index : Nat) (w : ErasedVec)
    (h : (remove v tsize index).map Prod.snd = some w) :
    w.len = v.len - 1 ∧ w.cap = v.cap := by
  unfold remove at h
  by_cases hi : index < v.len
  · rw [if_pos hi] at h
    cases he : erase v index with
    | none =>
      rw [he] at h
      exact absurd h (by simp)
    | some u =>
      rw [he] at h
      simp at h
      obtain ⟨h1, h2, _, _⟩ := erase_len_cap v index u he
      rw [← h]
      exact ⟨h1, h2⟩
  · rw [if_neg hi] at h
    exact absurd h (by simp)

theorem exec_len_le_cap (v : ErasedVec) (op : Op) (w : ErasedVec)
    (h : exec v op = some w) (hv : v.len ≤ v.cap) : w.len ≤ w.cap := by
  cases op with
  | push tid value => exact push_len_le_cap v tid value w h hv
  | pop =>
    have h' : pop v = some w := h
    unfold pop at h'
    by_cases h0 : 0 < v.len
    · rw [if_pos h0] at h'
      obtain rfl := (Option.some.inj h').symm
      show v.len - 1 ≤ v.cap
      omega
    · rw [if_neg h0] at h'
      exact absurd h' (by simp)
  | erase index =>
    have h' : erase v index = some w := h
    obtain ⟨h1, h2, _, _⟩ := erase_len_cap v index w h'
    omega
  | remove tsize index =>
    have h' : (remove v tsize index).map Prod.snd = some w := h
    obtain ⟨h1, h2⟩ := remove_len_cap v tsize index w h'
    omega
  | clone =>
    have h' : some (clone v) = some w := h
    obtain rfl := (Option.some.inj h').symm
    show v.len ≤ v.cap
    exact hv

theorem execAll_len_le_cap (ops : List Op) (v : ErasedVec) (hv : v.len ≤ v.cap)
    (w : ErasedVec) (h : execAll v ops = some w) : w.len ≤ w.cap := by
  induction ops generalizing v with
  | nil =>
    obtain rfl := (Option.some.inj h).symm
    exact hv
  | cons o os ih =>
    rw [execAll_cons] at h
    cases he : exec v o with
    | none =>
      rw [he] at h
      exact absurd h (by simp)
    | some u =>
      rw [he] at h
      exact ih u (exec_len_le_cap v o u he hv) h

/-! ### Clone lemmas -/

theorem clone_buffer (v : ErasedVec) (h : WF v) :
    (clone v).buffer = v.buffer.take (v.len * v.element_size) ++
      List.replicate (v.cap * v.element_size - v.len * v.element_size) 0 := by
  obtain ⟨hlc, hbl⟩ := h
  have hle : v.len * v.element_size ≤ v.cap * v.element_size :=
    Nat.mul_le_mul hlc (le_refl _)
  show writeBytes (List.replicate (v.cap * v.element_size) 0) 0
      (readBytes v.buffer 0 (v.len * v.element_size)) = _
  rw [readBytes_zero, writeBytes_replicate_zero]
  congr 2
  rw [List.length_take, hbl, Nat.min_eq_left hle]

/-! ### Claim theorems -/

/-- C1 (code bug): `into_vec` copies the live bytes into the new vector's
spare capacity but never sets its length (`Vec::set_len` is missing in
the source), so on a container holding one 4-byte element the returned
vector has length 0 — not the container's length 1 — and exposes no
elements. -/
theorem into_vec_len_zero_eval :
    ((pushAll (new 0 4 4) 0 [[4, 0, 0, 0]]).bind fun v => into_vec v 0)
      = some ⟨[4, 0, 0, 0], 0, 1⟩ ∧
    RustVec.elements 4 ⟨[4, 0, 0, 0], 0, 1⟩ = [] := by
  decide

/-- C2 (code bug): `erase` passes an element count to a byte-wise
`std::ptr::copy`, so with 4-byte elements `[4, 12, 36]` the element at
index 2 before `erase 0` is `36`, yet afterwards index 1 reads back `12`
instead of `36`: the subsequent elements are not shifted intact. -/
theorem erase_shift_multibyte_eval :
    ((pushAll (with_capacity 0 4 4 4) 0 [[4, 0, 0, 0], [12, 0, 0, 0], [36, 0, 0, 0]]).bind
        fun v => get v 0 2) = some (some [36, 0, 0, 0]) ∧
    ((pushAll (with_capacity 0 4 4 4) 0 [[4, 0, 0, 0], [12, 0, 0, 0], [36, 0, 0, 0]]).bind
        fun v => (erase v 0).bind fun w => get w 0 1) = some (some [12, 0, 0, 0]) ∧
    ([12, 0, 0, 0] : Bytes) ≠ [36, 0, 0, 0] := by
  decide

/-- C3 (code bug): `grow` on a zero-capacity container allocates the
one-element bootstrap buffer but falls through (the `return` announced
by the source's comment is missing) into the doubling path, ending with
capacity 2 and a two-slot buffer, not capacity 1. -/
theorem grow_bootstrap_falls_through (tid esize align : Nat) :
    grow (new tid esize align)
      = { new tid esize align with buffer := List.replicate (2 * esize) 0, cap := 2 } :=
  grow_eq_zero (new tid esize align) ⟨Nat.le_refl 0, by simp [new]⟩ rfl

/-- C4 counterexample: `erase` performs no bounds check, so on a
one-element container `erase 1` (index ≥ length) does not abort — it
silently returns the container with `len` decremented to 0. -/
theorem erase_out_of_range_counterexample :
    ((pushAll (new 0 1 1) 0 [[7]]).bind fun v => erase v 1)
      = some ⟨0, 1, 1, [7, 0], 0, 2⟩ := by
  decide

/-- C4 (amended): `remove` with an out-of-range index panics without
mutating the container, but `erase` with an out-of-range index on a
nonempty container silently completes, decrementing `len` by one and
moving no bytes; `erase` on an empty container panics on the `len - 1`
underflow. -/
theorem out_of_range_behavior (v : ErasedVec) (tsize index : Nat)
    (h : v.len ≤ index) :
    remove v tsize index = none ∧
    (0 < v.len → erase v index = some { v with len := v.len - 1 }) ∧
    (v.len = 0 → erase v index = none) := by
  refine ⟨?_, ?_, ?_⟩
  · unfold remove
    rw [if_neg (by omega)]
  · intro hpos
    unfold erase
    rw [if_neg (by omega), if_neg (by omega)]
  · intro h0
    unfold erase
    rw [if_pos h0]

/-- C4 witness. -/
theorem out_of_range_behavior_witness :
    remove ⟨0, 1, 1, [7, 0], 1, 2⟩ 1 5 = none ∧
    erase ⟨0, 1, 1, [7, 0], 1, 2⟩ 5 = some ⟨0, 1, 1, [7, 0], 0, 2⟩ ∧
    erase ⟨0, 1, 1, [7, 0], 0, 2⟩ 5 = none :=
  ⟨(out_of_range_behavior ⟨0, 1, 1, [7, 0], 1, 2⟩ 1 5 (by decide)).1,
   (out_of_range_behavior ⟨0, 1, 1, [7, 0], 1, 2⟩ 1 5 (by decide)).2.1 (by decide),
   (out_of_range_behavior ⟨0, 1, 1, [7, 0], 0, 2⟩ 1 5 (by decide)).2.2 rfl⟩

/-- C5 (code bug): `remove 0` on 4-byte elements `[4, 12, 36]` returns
the exact stored value `4`, but because the shift delegated to `erase`
moves only `len - 1 - index` bytes, the element originally at index 2
(`36`) is not retrievable at index 1 afterwards — index 1 reads `12`. -/
theorem remove_shift_multibyte_eval :
    ((pushAll (with_capacity 0 4 4 4) 0 [[4, 0, 0, 0], [12, 0, 0, 0], [36, 0, 0, 0]]).bind
        fun v => (remove v 4 0).map Prod.fst) = some [4, 0, 0, 0] ∧
    ((pushAll (with_capacity 0 4 4 4) 0 [[4, 0, 0, 0], [12, 0, 0, 0], [36, 0, 0, 0]]).bind
        fun v => (remove v 4 0).bind fun r => get r.2 0 1) = some (some [12, 0, 0, 0]) ∧
    ([12, 0, 0, 0] : Bytes) ≠ [36, 0, 0, 0] := by
  decide

/-- C6: starting from `new` or from `with_capacity` with any capacity,
any sequence of pushes of correctly-sized values of the declared type
succeeds, yields `len = N`, and `get i` returns the i-th pushed value
unchanged for every `i < N` — growth included. -/
theorem push_sequences_correct (tid esize align c : Nat) (v0 : ErasedVec)
    (h0 : v0 = new tid esize align ∨ v0 = with_capacity tid esize align c)
    (vals : List Bytes) (hvals : ∀ b ∈ vals, b.length = esize) :
    ∃ w, pushAll v0 tid vals = some w ∧ w.len = vals.length ∧
      ∀ i (hi : i < vals.length), get w tid i = some (some (vals[i])) := by
  have hty : v0.element_type = tid := by rcases h0 with hh | hh <;> subst hh <;> rfl
  have hsz : v0.element_size = esize := by rcases h0 with hh | hh <;> subst hh <;> rfl
  have hlen0 : v0.len = 0 := by rcases h0 with hh | hh <;> subst hh <;> rfl
  have hwf : WF v0 := by
    rcases h0 with hh | hh <;> subst hh
    · exact ⟨Nat.le_refl 0, by simp [new]⟩
    · exact ⟨Nat.zero_le c, by simp [with_capacity]⟩
  obtain ⟨w, hw, hwfw, hlenw, htyw, hszw, _, hel⟩ :=
    pushAll_spec vals v0 hwf (by rw [hsz]; exact hvals)
  rw [hty] at hw
  refine ⟨w, hw, by omega, ?_⟩
  intro i hi
  have h2 : element w i = vals[i] := by
    have h3 := hel i (by omega)
    rw [hlen0, Nat.zero_add] at h3
    exact h3
  rw [get_of_lt w tid i (by rw [htyw, hty]) (by omega), h2]

/-- C6 witness. -/
theorem push_sequences_correct_witness :
    ∃ w, pushAll (new 0 1 1) 0 [[5], [9]] = some w ∧ w.len = 2 ∧
      ∀ i (hi : i < 2), get w 0 i = some (some (([[5], [9]] : List Bytes)[i])) :=
  push_sequences_correct 0 1 1 0 (new 0 1 1) (Or.inl rfl) [[5], [9]] (by decide)

/-- C7: `pop` on a container with positive length only decrements `len`,
leaving the buffer, capacity and all metadata untouched; `pop` on an
empty container panics, which is observably distinct from a no-op. -/
theorem pop_behavior (v : ErasedVec) :
    (0 < v.len → pop v = some { v with len := v.len - 1 }) ∧
    (v.len = 0 → pop v = none) := by
  constructor
  · intro h
    unfold pop
    rw [if_pos h]
  · intro h
    unfold pop
    rw [if_neg (by omega)]

/-- C7 witness. -/
theorem pop_behavior_witness :
    pop ⟨0, 1, 1, [7, 9], 2, 2⟩ = some ⟨0, 1, 1, [7, 9], 1, 2⟩ ∧
    pop ⟨0, 1, 1, [7, 9], 0, 2⟩ = none :=
  ⟨(pop_behavior ⟨0, 1, 1, [7, 9], 2, 2⟩).1 (by decide),
   (pop_behavior ⟨0, 1, 1, [7, 9], 0, 2⟩).2 rfl⟩

/-- C8: `clone` duplicates all metadata (`element_type`, `element_size`,
`element_align`, `len`, `cap`) into a well-formed container whose own
freshly built buffer makes `get` agree with the source on every live
index (and on the type check). In this pure embedding each state owns
its buffer value outright, so no mutation of the clone can alter the
source. -/
theorem clone_independent (v : ErasedVec) (h : WF v) :
    (clone v).element_type = v.element_type ∧
    (clone v).element_size = v.element_size ∧
    (clone v).element_align = v.element_align ∧
    (clone v).len = v.len ∧ (clone v).cap = v.cap ∧ WF (clone v) ∧
    ∀ tid i, i < v.len → get (clone v) tid i = get v tid i := by
  obtain ⟨hlc, hbl⟩ := h
  have hmul : v.len * v.element_size ≤ v.cap * v.element_size :=
    Nat.mul_le_mul hlc (le_refl _)
  have hbuf := clone_buffer v ⟨hlc, hbl⟩
  have htk : (v.buffer.take (v.len * v.element_size)).length = v.len * v.element_size := by
    rw [List.length_take, hbl, Nat.min_eq_left hmul]
  refine ⟨rfl, rfl, rfl, rfl, rfl, ⟨?_, ?_⟩, ?_⟩
  · show v.len ≤ v.cap
    exact hlc
  · show (clone v).buffer.length = v.cap * v.element_size
    rw [hbuf, List.length_append, htk, List.length_replicate]
    omega
  · intro tid i hi
    by_cases ht : tid = v.element_type
    · have he : element (clone v) i = element v i := by
        show readBytes (clone v).buffer (i * v.element_size) v.element_size
          = readBytes v.buffer (i * v.element_size) v.element_size
        have hib : i * v.element_size + v.element_size ≤ v.len * v.element_size := by
          calc i * v.element_size + v.element_size
              = (i + 1) * v.element_size := (Nat.succ_mul _ _).symm
            _ ≤ v.len * v.element_size := Nat.mul_le_mul (by omega) (le_refl _)
        rw [hbuf, readBytes_append _ _ _ _ (by rw [htk]; exact hib),
          readBytes_take _ _ _ _ hib]
      rw [get_of_lt (clone v) tid i ht hi, get_of_lt v tid i ht hi, he]
    · have ht2 : ¬tid = (clone v).element_type := ht
      have g1 : get (clone v) tid i = none := by
        unfold get
        rw [if_neg ht2]
      have g2 : get v tid i = none := by
        unfold get
        rw [if_neg ht]
      rw [g1, g2]

/-- C8 witness. -/
theorem clone_independent_witness :
    WF ⟨0, 1, 1, [5, 9], 2, 2⟩ ∧
    get (clone ⟨0, 1, 1, [5, 9], 2, 2⟩) 0 1 = get ⟨0, 1, 1, [5, 9], 2, 2⟩ 0 1 :=
  ⟨by decide,
   (clone_independent ⟨0, 1, 1, [5, 9], 2, 2⟩ (by decide)).2.2.2.2.2.2 0 1 (by decide)⟩

/-- C9: every state reached from a fresh container (empty or pre-sized)
by a sequence of non-panicking operations satisfies `len ≤ cap`. -/
theorem reachable_len_le_cap (tid esize align c : Nat) (v0 : ErasedVec)
    (h0 : v0 = new tid esize align ∨ v0 = with_capacity tid esize align c)
    (ops : List Op) (w : ErasedVec) (h : execAll v0 ops = some w) :
    w.len ≤ w.cap := by
  have h00 : v0.len ≤ v0.cap := by
    rcases h0 with hh | hh <;> subst hh
    · exact Nat.le_refl 0
    · exact Nat.zero_le c
  exact execAll_len_le_cap ops v0 h00 w h

/-- C9 witness. -/
theorem reachable_len_le_cap_witness :
    (execAll (new 0 1 1) [Op.push 0 [5], Op.push 0 [9], Op.pop, Op.erase 0]
      = some (⟨0, 1, 1, [5, 9], 0, 2⟩ : ErasedVec)) ∧
    (⟨0, 1, 1, [5, 9], 0, 2⟩ : ErasedVec).len ≤ (⟨0, 1, 1, [5, 9], 0, 2⟩ : ErasedVec).cap :=
  ⟨by decide,
   reachable_len_le_cap 0 1 1 0 (new 0 1 1) (Or.inl rfl)
     [Op.push 0 [5], Op.push 0 [9], Op.pop, Op.erase 0]
     ⟨0, 1, 1, [5, 9], 0, 2⟩ (by decide)⟩

/-- C10: a mismatched type token makes `push`, `get` and `into_vec`
panic, but `remove` carries out no type-identity comparison at all: for
any in-range index and ANY claimed element size `tsize` it completes,
returning the `tsize` bytes read at the slot. -/
theorem remove_skips_type_check (v : ErasedVec) (tid tsize index : Nat)
    (value : Bytes) (hi : index < v.len) (hty : tid ≠ v.element_type) :
    push v tid value = none ∧ get v tid index = none ∧ into_vec v tid = none ∧
    (remove v tsize index).map Prod.fst
      = some (readBytes v.buffer (index * v.element_size) tsize) := by
  refine ⟨?_, ?_, ?_, ?_⟩
  · unfold push
    rw [if_neg hty]
  · unfold get
    rw [if_neg hty]
  · unfold into_vec
    rw [if_neg hty]
  · unfold remove
    rw [if_pos hi]
    cases he : erase v index with
    | none =>
      unfold erase at he
      rw [if_neg (by omega)] at he
      exact absurd he (by simp)
    | some u =>
      rfl

/-- C10 witness. -/
theorem remove_skips_type_check_witness :
    push ⟨0, 1, 1, [5, 9], 2, 2⟩ 1 [7] = none ∧
    get ⟨0, 1, 1, [5, 9], 2, 2⟩ 1 0 = none ∧
    into_vec ⟨0, 1, 1, [5, 9], 2, 2⟩ 1 = none ∧
    (remove ⟨0, 1, 1, [5, 9], 2, 2⟩ 1 0).map Prod.fst = some [5] :=
  remove_skips_type_check ⟨0, 1, 1, [5, 9], 2, 2⟩ 1 1 0 [7] (by decide) (by decide)

end ErasedVecModel
